import Mathlib

/-!
Verification development for the `shop-github-repo` connector.

The TypeScript source is shallowly embedded: strings are `List Char`,
JavaScript objects keyed by strings are association lists written with
JS-assignment semantics (`jsSet`), fallible operations return `Option`,
and the remote GitHub collaborators (tree listing, blob fetch, branch
info, per-path commit lookup) are an explicit environment together with
an instrumented call log.
-/

namespace ShopGithubRepo

/-- Strings of the embedded program. -/
abbrev Str := List Char

/-- Lookup of a key in an association list (JS object property read). -/
def lookupStr {α : Type} (k : Str) : List (Str × α) → Option α
  | [] => none
  | kv :: rest => if kv.1 = k then some kv.2 else lookupStr k rest

/-- JS object property assignment `m[k] = v`: overwrite in place if the key is
present, otherwise append at the end (insertion order preserved). -/
def jsSet {α : Type} (k : Str) (v : α) (m : List (Str × α)) : List (Str × α) :=
  if (lookupStr k m).isSome then
    m.map (fun kv => if kv.1 = k then (k, v) else kv)
  else m ++ [(k, v)]

/-- Apply a list of JS object assignments in order. -/
def writeAll {α : Type} (ws : List (Str × α)) (m : List (Str × α)) : List (Str × α) :=
  ws.foldl (fun acc kv => jsSet kv.1 kv.2 acc) m

/-- The value of the last assignment to key `k` in a write list, if any. -/
def lastVal {α : Type} (k : Str) : List (Str × α) → Option α
  | [] => none
  | kv :: rest =>
      match lastVal k rest with
      | some v => some v
      | none => if kv.1 = k then some kv.2 else none

/-! ### Identifier codec

The fileId construction from `getCurrentFiles` and its inverse `fileIdToPath`.
-/

/-- Character-for-character substitution: the model of a JS global
single-character `replace`. -/
def substChar (a b : Char) (s : Str) : Str := s.map (fun c => if c = a then b else c)

/-- The immutable per-source configuration the shop holds after `init`:
owner and repo parsed from the URL, the branch (config or default), the
parsed update interval and the header flag. -/
structure ShopState where
  owner : Str
  repo : Str
  repoUrl : Str
  branch : Str
  updateIntervalMs : Int
  shouldIncludeHeader : Bool
deriving DecidableEq

/-- The identifier head computed in `fileIdToPath`:
`github-repo-<owner>-<repo>-`. -/
def idPref (st : ShopState) : Str :=
  "github-repo-".data ++ st.owner ++ "-".data ++ st.repo ++ "-".data

/-- The fileId built in `getCurrentFiles`:
`github-repo-<owner>-<repo>-` followed by the path with `/` replaced by `-`. -/
def encodeFileId (st : ShopState) (path : Str) : Str :=
  idPref st ++ substChar '/' '-' path

/-- Everything after the first occurrence of `a`, the whole string when `a`
does not occur: the model of `s.substring(s.indexOf(a) + 1)`. -/
def afterFirst (a : Char) (s : Str) : Str :=
  match s.findIdx? (fun c => c = a) with
  | some i => s.drop (i + 1)
  | none => s

/-- `fileIdToPath`: strip the expected head and replace `-` by `/`; when the
head does not match, fall back to everything after the first `-` with `-`
replaced by `/`, failing (throwing) only when that fallback is empty. -/
def fileIdToPath (st : ShopState) (fileId : Str) : Option Str :=
  if idPref st <+: fileId then
    some (substChar '-' '/' (fileId.drop (idPref st).length))
  else if 0 < (substChar '-' '/' (afterFirst '-' fileId)).length then
    some (substChar '-' '/' (afterFirst '-' fileId))
  else none

/-! ### Interval parsing and other `init` configuration -/

/-- Whitespace skipped by JS `parseInt`. -/
def isJsSpace (c : Char) : Bool :=
  c = ' ' || c = '\t' || c = '\n' || c = '\r' || c = '\x0b' || c = '\x0c'

/-- Numeric value of a digit run. -/
def digitsToNat (ds : Str) : Nat := ds.foldl (fun a c => a * 10 + (c.toNat - 48)) 0

/-- Longest leading run of decimal digits, failing when there is none. -/
def leadingDigits (s : Str) : Option Nat :=
  if (s.takeWhile Char.isDigit).isEmpty then none
  else some (digitsToNat (s.takeWhile Char.isDigit))

/-- JS `parseInt(s, 10)`: skip whitespace, optional sign, then the longest
leading digit run; `none` models `NaN`. -/
def jsParseInt (s : Str) : Option Int :=
  match s.dropWhile isJsSpace with
  | [] => none
  | c :: rest =>
    if c = '-' then (leadingDigits rest).map (fun n => -(n : Int))
    else if c = '+' then (leadingDigits rest).map (fun n => (n : Int))
    else (leadingDigits (c :: rest)).map (fun n => (n : Int))

/-- `parseInterval`: the unit is the final character (`slice(-1)`), the value
is `parseInt(interval.slice(0, -1), 10)`; a NaN value (checked first) or an
unknown unit throws, modelled as `none`. -/
def parseInterval (interval : Str) : Option Int :=
  match jsParseInt interval.dropLast, interval.getLast? with
  | none, _ => none
  | some v, some u =>
    if u = 'm' then some (v * 60 * 1000)
    else if u = 'h' then some (v * 60 * 60 * 1000)
    else if u = 'd' then some (v * 24 * 60 * 60 * 1000)
    else if u = 'w' then some (v * 7 * 24 * 60 * 60 * 1000)
    else none
  | some _, none => none

/-- Interval resolution in `init`: `config.updateInterval || '1d'` — an absent
or empty (falsy) configured string falls back to `'1d'` before parsing. -/
def initUpdateIntervalMs (cfg : Option Str) : Option Int :=
  parseInterval (match cfg with
    | some s => if s = [] then "1d".data else s
    | none => "1d".data)

/-- Branch resolution in `init`: `config.branch || 'master'`. -/
def initBranch (cfg : Option Str) : Str :=
  match cfg with
  | some b => if b = [] then "master".data else b
  | none => "master".data

/-! ### Content annotation -/

/-- `formatFileContentWithHeader`, taking the already ISO-formatted date
string (the `Date` coercion is the platform's, supplied by the environment). -/
def formatFileContentWithHeader (st : ShopState)
    (rawContent pathInRepo commitSha formattedDate : Str) : Str :=
  let fileURL := st.repoUrl ++ "/blob/".data ++ commitSha ++ "/".data ++ pathInRepo
  "File from the GitHub Repo ".data ++ st.owner ++ "/".data ++ st.repo
    ++ "\nPath: ".data ++ pathInRepo
    ++ "\nRepo URL: ".data ++ st.repoUrl
    ++ "\nFile URL (permalink): ".data ++ fileURL
    ++ "\nDate modified: ".data ++ formattedDate
    ++ "\n----------\n".data ++ rawContent
    ++ "\n[end of ".data ++ pathInRepo ++ "]".data

/-! ### The remote collaborators and the instrumented cycle -/

/-- One remote GitHub API operation, with the ref it is issued against. -/
inductive RemoteCall where
  | treeList (branch : Str)
  | blobFetch (path : Str)
  | branchGet (branch : Str)
  | commitLookup (branch : Str) (path : Str)
deriving DecidableEq

/-- The ref name a remote call is issued against, if it takes one. -/
def callBranch : RemoteCall → Option Str
  | .treeList b => some b
  | .blobFetch _ => none
  | .branchGet b => some b
  | .commitLookup b _ => some b

/-- The remote collaborators for one cycle: the filtered snapshot that the
tree listing and blob fetches produce, the branch-head lookup, the per-path
last-commit oracle, and the platform's date-to-ISO coercions. -/
structure RemoteEnv where
  files : List (Str × Str)
  branchHead : Option (Str × Str)
  lastCommit : Str → Option (Str × Int)
  isoOfString : Str → Str
  isoOfMillis : Int → Str

/-- `getCurrentFiles`: the recursive tree listing, include/ignore filtering
and parallel blob fetches are collapsed into the environment's snapshot; the
remote calls they issue are logged. -/
def getCurrentFiles (st : ShopState) (env : RemoteEnv) :
    List (Str × Str) × List RemoteCall :=
  (env.files, RemoteCall.treeList st.branch :: env.files.map (fun f => RemoteCall.blobFetch f.1))

/-- Action of one entry of the returned operation map. -/
inductive FileAction where
  | add
  | update
  | delete
deriving DecidableEq

/-- One entry of the returned operation map. -/
structure ChangeOp where
  action : FileAction
  content : Option Str
deriving DecidableEq

/-- The `{ action: 'delete' }` operation. -/
def delOp : ChangeOp := ⟨.delete, none⟩

/-- Pairs each prior fileId with its decode result (the try/catch loop). -/
def decodedPairs (st : ShopState) (existingFiles : List (Str × Int)) :
    List (Str × Option Str) :=
  existingFiles.map (fun kv => (kv.1, fileIdToPath st kv.1))

/-- Unconditional deletes for prior ids whose decode throws. -/
def decodeFailDeletes (decoded : List (Str × Option Str)) : List (Str × ChangeOp) :=
  decoded.filterMap (fun kv =>
    match kv.2 with
    | none => some (kv.1, delOp)
    | some _ => none)

/-- The surviving fileId-to-path index (`existingPaths`). -/
def existingPathList (decoded : List (Str × Option Str)) : List (Str × Str) :=
  decoded.filterMap (fun kv => kv.2.map (fun p => (kv.1, p)))

/-- Deletes for surviving prior ids whose path is absent from the snapshot. -/
def absentDeletes (existingPaths : List (Str × Str)) (currentFiles : List (Str × Str)) :
    List (Str × ChangeOp) :=
  existingPaths.filterMap (fun kv =>
    match lookupStr kv.2 currentFiles with
    | some _ => none
    | none => some (kv.1, delOp))

/-- The content an added file is emitted with: annotated with the branch-head
commit when headers are enabled and branch info is available, raw otherwise. -/
def addedContent (st : ShopState) (bi : Option (Str × Str)) (iso : Str → Str)
    (path raw : Str) : Str :=
  match bi with
  | some info =>
      if st.shouldIncludeHeader then
        formatFileContentWithHeader st raw path info.1 (iso info.2)
      else raw
  | none => raw

/-- Adds for snapshot paths whose fileId is not a surviving prior id. -/
def addWrites (st : ShopState) (bi : Option (Str × Str)) (iso : Str → Str)
    (prunedIds : List Str) (currentFiles : List (Str × Str)) : List (Str × ChangeOp) :=
  currentFiles.filterMap (fun pc =>
    let fileId := encodeFileId st pc.1
    if fileId ∈ prunedIds then none
    else some (fileId, ⟨.add, some (addedContent st bi iso pc.1 pc.2)⟩))

/-- The `filesToCheckForUpdate` filter: not already written this cycle, and
the snapshot maps the decoded path back to the same fileId. -/
def filesToCheck (st : ShopState) (existingPaths : List (Str × Str))
    (currentFiles : List (Str × Str)) (m : List (Str × ChangeOp)) : List (Str × Str) :=
  existingPaths.filter (fun kv =>
    (lookupStr kv.1 m).isNone &&
      (match lookupStr kv.2 currentFiles with
       | some _ => decide (encodeFileId st kv.2 = kv.1)
       | none => false))

/-- The content an updated file is emitted with: annotated with that file's
own most recent commit when headers are enabled, raw otherwise. -/
def updatedContent (st : ShopState) (env : RemoteEnv) (path raw : Str)
    (info : Str × Int) : Str :=
  if st.shouldIncludeHeader then
    formatFileContentWithHeader st raw path info.1 (env.isoOfMillis info.2)
  else raw

/-- Updates for checked files whose last commit is newer than the record,
annotated with that specific commit when headers are enabled. -/
def updateWrites (st : ShopState) (env : RemoteEnv) (existingFiles : List (Str × Int))
    (currentFiles : List (Str × Str)) (toCheck : List (Str × Str)) : List (Str × ChangeOp) :=
  toCheck.filterMap (fun kv =>
    match env.lastCommit kv.2, lookupStr kv.1 existingFiles, lookupStr kv.2 currentFiles with
    | some info, some lastIndexed, some rawContent =>
        if lastIndexed < info.2 then
          some (kv.1, ⟨.update, some (updatedContent st env kv.2 rawContent info)⟩)
        else none
    | _, _, _ => none)

/-- The branch-head metadata the cycle holds: fetched only when headers are
enabled (and then possibly failed). -/
def cycleBranchHead (st : ShopState) (env : RemoteEnv) : Option (Str × Str) :=
  if st.shouldIncludeHeader then env.branchHead else none

/-- The surviving prior fileIds (`existingFileIds` after the decode loop has
removed the ids whose decode threw). -/
def cyclePrunedIds (st : ShopState) (existingFiles : List (Str × Int)) : List Str :=
  (existingPathList (decodedPairs st existingFiles)).map Prod.fst

/-- The operation map after the decode-failure deletes, the absent-path
deletes and the adds, in program order. -/
def cycleMapAfterAdds (st : ShopState) (env : RemoteEnv)
    (existingFiles : List (Str × Int)) : List (Str × ChangeOp) :=
  writeAll
    (addWrites st (cycleBranchHead st env) env.isoOfString
      (cyclePrunedIds st existingFiles) (getCurrentFiles st env).1)
    (writeAll
      (absentDeletes (existingPathList (decodedPairs st existingFiles))
        (getCurrentFiles st env).1)
      (writeAll (decodeFailDeletes (decodedPairs st existingFiles)) []))

/-- `filesToCheckForUpdate` for the cycle. -/
def cycleToCheck (st : ShopState) (env : RemoteEnv)
    (existingFiles : List (Str × Int)) : List (Str × Str) :=
  filesToCheck st (existingPathList (decodedPairs st existingFiles))
    (getCurrentFiles st env).1 (cycleMapAfterAdds st env existingFiles)

/-- The final operation map of a non-gated cycle. -/
def cycleMap (st : ShopState) (env : RemoteEnv)
    (existingFiles : List (Str × Int)) : List (Str × ChangeOp) :=
  writeAll
    (updateWrites st env existingFiles (getCurrentFiles st env).1
      (cycleToCheck st env existingFiles))
    (cycleMapAfterAdds st env existingFiles)

/-- The remote calls a non-gated cycle issues, in program order. -/
def cycleCalls (st : ShopState) (env : RemoteEnv)
    (existingFiles : List (Str × Int)) : List RemoteCall :=
  (getCurrentFiles st env).2
    ++ (if st.shouldIncludeHeader then [RemoteCall.branchGet st.branch] else [])
    ++ (cycleToCheck st env existingFiles).map (fun kv => RemoteCall.commitLookup st.branch kv.2)

/-- The `update` method: the interval gate, then the snapshot fetch, the
decode loop, the delete/add/update diff phases (JS-object writes applied in
program order), paired with the log of remote calls the cycle issues. -/
def update (st : ShopState) (env : RemoteEnv) (now lastUsed : Int)
    (existingFiles : List (Str × Int)) : List (Str × ChangeOp) × List RemoteCall :=
  if now - lastUsed < st.updateIntervalMs then ([], [])
  else (cycleMap st env existingFiles, cycleCalls st env existingFiles)

/-! ### Concrete fixtures for witnesses and counterexamples -/

/-- A concrete source: owner `o`, repo `r`, default branch, headers off,
minimum interval 1000 ms. -/
def stO : ShopState :=
  { owner := "o".data, repo := "r".data, repoUrl := "https://github.com/o/r".data,
    branch := "master".data, updateIntervalMs := 1000, shouldIncludeHeader := false }

/-- Like `stO` but with headers enabled. -/
def stH : ShopState :=
  { owner := "o".data, repo := "r".data, repoUrl := "https://github.com/o/r".data,
    branch := "master".data, updateIntervalMs := 1000, shouldIncludeHeader := true }

/-- A one-file remote snapshot. -/
def envBar : RemoteEnv :=
  { files := [("bar".data, "B".data)], branchHead := none, lastCommit := fun _ => none,
    isoOfString := fun s => s, isoOfMillis := fun _ => [] }

/-- An empty remote snapshot. -/
def envEmpty : RemoteEnv :=
  { files := [], branchHead := none, lastCommit := fun _ => none,
    isoOfString := fun s => s, isoOfMillis := fun _ => [] }

/-- A snapshot with two paths whose fileIds collide (`a-b` and `a/b`). -/
def envColl : RemoteEnv :=
  { files := [("a-b".data, "X".data), ("a/b".data, "Y".data)], branchHead := none,
    lastCommit := fun _ => none, isoOfString := fun s => s, isoOfMillis := fun _ => [] }

/-- A one-file snapshot whose oracle reports commit timestamp 200. -/
def envUpd : RemoteEnv :=
  { files := [("a.txt".data, "C".data)], branchHead := none,
    lastCommit := fun pth => if pth = "a.txt".data then some ("s".data, 200) else none,
    isoOfString := fun s => s, isoOfMillis := fun _ => [] }

/-- The spec's well-formed interval strings, from the claim's words: a
nonempty all-digit magnitude followed by a unit among m, h, d, w. -/
abbrev strictIntervalForm (s : Str) : Prop :=
  s.dropLast ≠ [] ∧ (∀ c ∈ s.dropLast, c.isDigit) ∧
    (s.getLast? = some 'm' ∨ s.getLast? = some 'h' ∨
      s.getLast? = some 'd' ∨ s.getLast? = some 'w')

/-! ### Properties -/

@[simp] theorem lookupStr_nil {α : Type} (k : Str) :
    lookupStr k ([] : List (Str × α)) = none := rfl

@[simp] theorem lookupStr_cons {α : Type} (k : Str) (kv : Str × α) (m : List (Str × α)) :
    lookupStr k (kv :: m) = if kv.1 = k then some kv.2 else lookupStr k m := rfl

theorem lookupStr_eq_none_iff {α : Type} (k : Str) (m : List (Str × α)) :
    lookupStr k m = none ↔ ∀ kv ∈ m, kv.1 ≠ k := by
  induction m with
  | nil =>
    constructor
    · intro _ kv hkv
      exact absurd hkv (List.not_mem_nil kv)
    · intro _
      rfl
  | cons kv rest ih =>
    rw [lookupStr_cons]
    by_cases h : kv.1 = k
    · rw [if_pos h]
      constructor
      · intro hc
        exact absurd hc (by simp)
      · intro hall
        exact absurd h (hall kv (List.mem_cons_self _ _))
    · rw [if_neg h, ih]
      constructor
      · intro hall x hx
        rcases List.mem_cons.mp hx with hx | hx
        · rw [hx]
          exact h
        · exact hall x hx
      · intro hall x hx
        exact hall x (List.mem_cons_of_mem _ hx)

theorem mem_of_lookupStr_eq_some {α : Type} {k : Str} {v : α} {m : List (Str × α)}
    (h : lookupStr k m = some v) : (k, v) ∈ m := by
  induction m with
  | nil => exact absurd h (by simp)
  | cons kv rest ih =>
    by_cases hk : kv.1 = k
    · rw [lookupStr_cons, if_pos hk, Option.some.injEq] at h
      have hkv : kv = (k, v) := by
        cases kv
        simp_all
      exact List.mem_cons.mpr (Or.inl hkv.symm)
    · rw [lookupStr_cons, if_neg hk] at h
      exact List.mem_cons_of_mem _ (ih h)

theorem lookupStr_isSome_of_mem {α : Type} {k : Str} {v : α} {m : List (Str × α)}
    (h : (k, v) ∈ m) : (lookupStr k m).isSome := by
  induction m with
  | nil => exact absurd h (List.not_mem_nil _)
  | cons kv rest ih =>
    rw [lookupStr_cons]
    by_cases hk : kv.1 = k
    · rw [if_pos hk]
      rfl
    · rw [if_neg hk]
      rcases List.mem_cons.mp h with h1 | h1
      · exfalso
        rw [← h1] at hk
        exact hk rfl
      · exact ih h1

theorem lookupStr_map_replace_ne {α : Type} {k kr : Str} (v : α) (m : List (Str × α))
    (h : kr ≠ k) :
    lookupStr k (m.map (fun kv => if kv.1 = kr then (kr, v) else kv)) = lookupStr k m := by
  induction m with
  | nil => rfl
  | cons kv rest ih =>
    by_cases hk : kv.1 = kr
    · simp only [List.map_cons, if_pos hk, lookupStr_cons]
      rw [if_neg h, if_neg (by rw [hk]; exact h)]
      exact ih
    · simp only [List.map_cons, if_neg hk, lookupStr_cons]
      by_cases hk2 : kv.1 = k
      · simp [hk2]
      · simp only [if_neg hk2]
        exact ih

theorem lookupStr_map_replace_self {α : Type} {k : Str} (v : α) (m : List (Str × α))
    (h : (lookupStr k m).isSome) :
    lookupStr k (m.map (fun kv => if kv.1 = k then (k, v) else kv)) = some v := by
  induction m with
  | nil => simp at h
  | cons kv rest ih =>
    by_cases hk : kv.1 = k
    · simp [hk]
    · rw [lookupStr_cons, if_neg hk] at h
      rw [List.map_cons, if_neg hk, lookupStr_cons, if_neg hk]
      exact ih h

theorem lookupStr_append {α : Type} (k : Str) (m l : List (Str × α)) :
    lookupStr k (m ++ l) =
      match lookupStr k m with
      | some v => some v
      | none => lookupStr k l := by
  induction m with
  | nil => simp
  | cons kv rest ih =>
    by_cases hk : kv.1 = k
    · simp [hk]
    · simp [hk, ih]

theorem lookupStr_jsSet {α : Type} (k kw : Str) (v : α) (m : List (Str × α)) :
    lookupStr k (jsSet kw v m) = if kw = k then some v else lookupStr k m := by
  unfold jsSet
  by_cases hp : (lookupStr kw m).isSome
  · rw [if_pos hp]
    by_cases hk : kw = k
    · subst hk
      rw [if_pos rfl]
      exact lookupStr_map_replace_self v m hp
    · rw [if_neg hk]
      exact lookupStr_map_replace_ne v m hk
  · rw [if_neg hp]
    rw [lookupStr_append]
    by_cases hk : kw = k
    · subst hk
      rw [Option.not_isSome_iff_eq_none] at hp
      simp [hp]
    · rcases h : lookupStr k m with _ | v₀
      · simp [h, hk]
      · simp [h, hk]

@[simp] theorem writeAll_nil {α : Type} (m : List (Str × α)) : writeAll [] m = m := rfl

@[simp] theorem writeAll_cons {α : Type} (kv : Str × α) (ws : List (Str × α)) (m : List (Str × α)) :
    writeAll (kv :: ws) m = writeAll ws (jsSet kv.1 kv.2 m) := rfl

@[simp] theorem lastVal_nil {α : Type} (k : Str) : lastVal k ([] : List (Str × α)) = none := rfl

theorem lastVal_cons {α : Type} (k : Str) (kv : Str × α) (rest : List (Str × α)) :
    lastVal k (kv :: rest) =
      match lastVal k rest with
      | some v => some v
      | none => if kv.1 = k then some kv.2 else none := rfl

theorem lastVal_mem {α : Type} {k : Str} {v : α} {ws : List (Str × α)}
    (h : lastVal k ws = some v) : (k, v) ∈ ws := by
  induction ws with
  | nil => exact absurd h (by simp)
  | cons kv rest ih =>
    rcases hr : lastVal k rest with _ | w
    · rw [lastVal_cons, hr] at h
      replace h : (if kv.1 = k then some kv.2 else none) = some v := h
      by_cases hk : kv.1 = k
      · rw [if_pos hk, Option.some.injEq] at h
        have hkv : kv = (k, v) := by
          cases kv
          simp_all
        exact List.mem_cons.mpr (Or.inl hkv.symm)
      · rw [if_neg hk] at h
        exact absurd h (by simp)
    · rw [lastVal_cons, hr] at h
      replace h : some w = some v := h
      rw [Option.some.injEq] at h
      subst h
      exact List.mem_cons_of_mem _ (ih hr)

theorem lastVal_eq_none_iff {α : Type} (k : Str) (ws : List (Str × α)) :
    lastVal k ws = none ↔ ∀ kv ∈ ws, kv.1 ≠ k := by
  induction ws with
  | nil =>
    constructor
    · intro _ kv hkv
      exact absurd hkv (List.not_mem_nil kv)
    · intro _
      rfl
  | cons kv rest ih =>
    rcases hr : lastVal k rest with _ | w
    · have hrest := ih.mp hr
      have hstep : lastVal k (kv :: rest) = (if kv.1 = k then some kv.2 else none) := by
        rw [lastVal_cons, hr]
      rw [hstep]
      by_cases hk : kv.1 = k
      · rw [if_pos hk]
        constructor
        · intro hc
          exact absurd hc (by simp)
        · intro hall
          exact absurd hk (hall kv (List.mem_cons_self _ _))
      · rw [if_neg hk]
        constructor
        · intro _ x hx
          rcases List.mem_cons.mp hx with hx | hx
          · rw [hx]
            exact hk
          · exact hrest x hx
        · intro _
          rfl
    · have hstep : lastVal k (kv :: rest) = some w := by
        rw [lastVal_cons, hr]
      rw [hstep]
      constructor
      · intro hc
        exact absurd hc (by simp)
      · intro hall
        exact absurd rfl (hall (k, w) (List.mem_cons_of_mem _ (lastVal_mem hr)))

theorem lookupStr_writeAll_of_none {α : Type} {k : Str} {ws : List (Str × α)}
    (m : List (Str × α)) (h : lastVal k ws = none) :
    lookupStr k (writeAll ws m) = lookupStr k m := by
  induction ws generalizing m with
  | nil => rfl
  | cons kv rest ih =>
    have hall := (lastVal_eq_none_iff k (kv :: rest)).mp h
    have hrest : lastVal k rest = none :=
      (lastVal_eq_none_iff k rest).mpr (fun x hx => hall x (List.mem_cons_of_mem _ hx))
    have hk : kv.1 ≠ k := hall kv (List.mem_cons_self _ _)
    rw [writeAll_cons, ih _ hrest, lookupStr_jsSet, if_neg hk]

theorem lookupStr_writeAll_of_some {α : Type} {k : Str} {v : α} {ws : List (Str × α)}
    (m : List (Str × α)) (h : lastVal k ws = some v) :
    lookupStr k (writeAll ws m) = some v := by
  induction ws generalizing m with
  | nil => exact absurd h (by simp)
  | cons kv rest ih =>
    rcases hr : lastVal k rest with _ | w
    · rw [lastVal_cons, hr] at h
      replace h : (if kv.1 = k then some kv.2 else none) = some v := h
      by_cases hk : kv.1 = k
      · rw [if_pos hk, Option.some.injEq] at h
        rw [writeAll_cons, lookupStr_writeAll_of_none _ hr, lookupStr_jsSet, if_pos hk, h]
      · rw [if_neg hk] at h
        exact absurd h (by simp)
    · rw [lastVal_cons, hr] at h
      replace h : some w = some v := h
      rw [Option.some.injEq] at h
      subst h
      rw [writeAll_cons]
      exact ih _ hr

theorem lastVal_eq_none {α : Type} {k : Str} {ws : List (Str × α)}
    (h : ∀ kv ∈ ws, kv.1 ≠ k) : lastVal k ws = none :=
  (lastVal_eq_none_iff k ws).mpr h

theorem lastVal_eq_some {α : Type} {k : Str} {v : α} {ws : List (Str × α)}
    (hmem : (k, v) ∈ ws) (huniq : ∀ kv ∈ ws, kv.1 = k → kv.2 = v) :
    lastVal k ws = some v := by
  induction ws with
  | nil => exact absurd hmem (List.not_mem_nil _)
  | cons kv rest ih =>
    rw [lastVal_cons]
    rcases hr : lastVal k rest with _ | w
    · show (if kv.1 = k then some kv.2 else none) = some v
      rcases List.mem_cons.mp hmem with h | h
      · rw [if_pos (by rw [← h] : kv.1 = k), ← h]
      · exact absurd rfl ((lastVal_eq_none_iff k rest).mp hr (k, v) h)
    · show some w = some v
      have hw := lastVal_mem hr
      have hwv : w = v := huniq (k, w) (List.mem_cons_of_mem _ hw) rfl
      rw [hwv]

theorem keys_map_replace {α : Type} (k : Str) (v : α) (m : List (Str × α)) :
    (m.map (fun kv => if kv.1 = k then (k, v) else kv)).map Prod.fst = m.map Prod.fst := by
  induction m with
  | nil => rfl
  | cons kv rest ih =>
    simp only [List.map_cons]
    by_cases hk : kv.1 = k
    · rw [if_pos hk, ih]
      simp [hk]
    · rw [if_neg hk, ih]

theorem nodup_keys_jsSet {α : Type} (k : Str) (v : α) (m : List (Str × α))
    (h : (m.map Prod.fst).Nodup) : ((jsSet k v m).map Prod.fst).Nodup := by
  unfold jsSet
  by_cases hp : (lookupStr k m).isSome
  · rw [if_pos hp, keys_map_replace]
    exact h
  · rw [if_neg hp, List.map_append]
    rw [Option.not_isSome_iff_eq_none] at hp
    have hnk : k ∉ m.map Prod.fst := by
      intro hc
      obtain ⟨kv, hkv, hfst⟩ := List.mem_map.mp hc
      exact (lookupStr_eq_none_iff k m).mp hp kv hkv hfst
    rw [List.nodup_append_comm]
    exact List.nodup_cons.mpr ⟨hnk, h⟩

theorem nodup_keys_writeAll {α : Type} (ws : List (Str × α)) (m : List (Str × α))
    (h : (m.map Prod.fst).Nodup) : ((writeAll ws m).map Prod.fst).Nodup := by
  induction ws generalizing m with
  | nil => exact h
  | cons kv rest ih =>
    rw [writeAll_cons]
    exact ih _ (nodup_keys_jsSet _ _ _ h)

theorem subst_subst_cancel (a b : Char) (p : Str) (h : b ∉ p) :
    substChar b a (substChar a b p) = p := by
  unfold substChar
  rw [List.map_map]
  have : ∀ c ∈ p, ((fun c => if c = b then a else c) ∘ fun c => if c = a then b else c) c = c := by
    intro c hc
    have hcb : c ≠ b := fun hcb => h (hcb ▸ hc)
    by_cases hca : c = a
    · simp [hca]
    · simp [hca, hcb]
  rw [List.map_congr_left this, List.map_id']

theorem subst_aba (a b : Char) (p : Str) :
    substChar a b (substChar b a (substChar a b p)) = substChar a b p := by
  unfold substChar
  rw [List.map_map, List.map_map]
  apply List.map_congr_left
  intro c _
  simp only [Function.comp]
  by_cases hca : c = a
  · simp [hca]
  · by_cases hcb : c = b
    · simp [hca, hcb]
    · simp [hca, hcb]

theorem fileIdToPath_pref_append (st : ShopState) (rest : Str) :
    fileIdToPath st (idPref st ++ rest) = some (substChar '-' '/' rest) := by
  unfold fileIdToPath
  rw [if_pos (List.prefix_append _ _)]
  rw [List.drop_left]

/-! ### Characterizations of the diff phases -/

theorem getCurrentFiles_fst (st : ShopState) (env : RemoteEnv) :
    (getCurrentFiles st env).1 = env.files := rfl

theorem fileIdToPath_encodeFileId (st : ShopState) (p : Str) :
    fileIdToPath st (encodeFileId st p) =
      some (substChar '-' '/' (substChar '/' '-' p)) :=
  fileIdToPath_pref_append st _

theorem encodeFileId_of_decode {st : ShopState} {q p : Str}
    (h : fileIdToPath st (encodeFileId st q) = some p) :
    encodeFileId st p = encodeFileId st q := by
  rw [fileIdToPath_encodeFileId] at h
  rw [Option.some.injEq] at h
  subst h
  unfold encodeFileId
  rw [subst_aba]

theorem decodedPairs_val {st : ShopState} {ex : List (Str × Int)} {kv : Str × Option Str}
    (h : kv ∈ decodedPairs st ex) : kv.2 = fileIdToPath st kv.1 := by
  obtain ⟨a, _, ha⟩ := List.mem_map.mp h
  rw [← ha]

theorem decodedPairs_key {st : ShopState} {ex : List (Str × Int)} {kv : Str × Option Str}
    (h : kv ∈ decodedPairs st ex) : kv.1 ∈ ex.map Prod.fst := by
  obtain ⟨a, hmem, ha⟩ := List.mem_map.mp h
  exact List.mem_map.mpr ⟨a, hmem, by rw [← ha]⟩

theorem decodedPairs_mem {st : ShopState} {ex : List (Str × Int)} {k : Str}
    (h : k ∈ ex.map Prod.fst) : (k, fileIdToPath st k) ∈ decodedPairs st ex := by
  obtain ⟨a, hmem, ha⟩ := List.mem_map.mp h
  exact List.mem_map.mpr ⟨a, hmem, by rw [ha]⟩

theorem eps_val {st : ShopState} {ex : List (Str × Int)} {kv : Str × Str}
    (h : kv ∈ existingPathList (decodedPairs st ex)) :
    fileIdToPath st kv.1 = some kv.2 := by
  obtain ⟨a, hmem, ha⟩ := List.mem_filterMap.mp h
  obtain ⟨q, hq, hpair⟩ := Option.map_eq_some'.mp ha
  have hv := decodedPairs_val hmem
  rw [← hpair, ← hv, hq]

theorem eps_key {st : ShopState} {ex : List (Str × Int)} {kv : Str × Str}
    (h : kv ∈ existingPathList (decodedPairs st ex)) : kv.1 ∈ ex.map Prod.fst := by
  obtain ⟨a, hmem, ha⟩ := List.mem_filterMap.mp h
  obtain ⟨q, _, hpair⟩ := Option.map_eq_some'.mp ha
  have := decodedPairs_key hmem
  rw [← hpair]
  exact this

theorem eps_mem {st : ShopState} {ex : List (Str × Int)} {k p : Str}
    (hk : k ∈ ex.map Prod.fst) (hdec : fileIdToPath st k = some p) :
    (k, p) ∈ existingPathList (decodedPairs st ex) := by
  apply List.mem_filterMap.mpr
  refine ⟨(k, fileIdToPath st k), decodedPairs_mem hk, ?_⟩
  rw [hdec]
  rfl

theorem prunedIds_subset {st : ShopState} {ex : List (Str × Int)} {k : Str}
    (h : k ∈ cyclePrunedIds st ex) : k ∈ ex.map Prod.fst := by
  obtain ⟨kv, hmem, hk⟩ := List.mem_map.mp h
  rw [← hk]
  exact eps_key hmem

theorem prunedIds_decode {st : ShopState} {ex : List (Str × Int)} {k : Str}
    (h : k ∈ cyclePrunedIds st ex) : ∃ p, fileIdToPath st k = some p := by
  obtain ⟨kv, hmem, hk⟩ := List.mem_map.mp h
  exact ⟨kv.2, hk ▸ eps_val hmem⟩

theorem prunedIds_mem {st : ShopState} {ex : List (Str × Int)} {k p : Str}
    (hk : k ∈ ex.map Prod.fst) (hdec : fileIdToPath st k = some p) :
    k ∈ cyclePrunedIds st ex :=
  List.mem_map.mpr ⟨(k, p), eps_mem hk hdec, rfl⟩

theorem dfd_val {d : List (Str × Option Str)} {kv : Str × ChangeOp}
    (h : kv ∈ decodeFailDeletes d) : kv.2 = delOp := by
  obtain ⟨a, _, ha⟩ := List.mem_filterMap.mp h
  rcases h2 : a.2 with _ | p
  · rw [h2] at ha
    replace ha : some (a.1, delOp) = some kv := ha
    rw [Option.some.injEq] at ha
    rw [← ha]
  · rw [h2] at ha
    exact absurd (ha : none = some kv) (by simp)

theorem dfd_key {st : ShopState} {ex : List (Str × Int)} {kv : Str × ChangeOp}
    (h : kv ∈ decodeFailDeletes (decodedPairs st ex)) :
    fileIdToPath st kv.1 = none := by
  obtain ⟨a, hmem, ha⟩ := List.mem_filterMap.mp h
  rcases h2 : a.2 with _ | p
  · rw [h2] at ha
    replace ha : some (a.1, delOp) = some kv := ha
    rw [Option.some.injEq] at ha
    have hv := decodedPairs_val hmem
    rw [← ha]
    rw [← hv, h2]
  · rw [h2] at ha
    exact absurd (ha : none = some kv) (by simp)

theorem dfd_mem {st : ShopState} {ex : List (Str × Int)} {k : Str}
    (hk : k ∈ ex.map Prod.fst) (hdec : fileIdToPath st k = none) :
    (k, delOp) ∈ decodeFailDeletes (decodedPairs st ex) := by
  apply List.mem_filterMap.mpr
  refine ⟨(k, fileIdToPath st k), decodedPairs_mem hk, ?_⟩
  rw [hdec]

theorem ad_val {eps cur : List (Str × Str)} {kv : Str × ChangeOp}
    (h : kv ∈ absentDeletes eps cur) : kv.2 = delOp := by
  obtain ⟨a, _, ha⟩ := List.mem_filterMap.mp h
  rcases h2 : lookupStr a.2 cur with _ | r
  · rw [h2] at ha
    replace ha : some (a.1, delOp) = some kv := ha
    rw [Option.some.injEq] at ha
    rw [← ha]
  · rw [h2] at ha
    exact absurd (ha : none = some kv) (by simp)

theorem ad_src {eps cur : List (Str × Str)} {kv : Str × ChangeOp}
    (h : kv ∈ absentDeletes eps cur) :
    ∃ p, (kv.1, p) ∈ eps ∧ lookupStr p cur = none := by
  obtain ⟨a, hmem, ha⟩ := List.mem_filterMap.mp h
  rcases h2 : lookupStr a.2 cur with _ | r
  · rw [h2] at ha
    replace ha : some (a.1, delOp) = some kv := ha
    rw [Option.some.injEq] at ha
    refine ⟨a.2, ?_, h2⟩
    rw [← ha]
    exact hmem
  · rw [h2] at ha
    exact absurd (ha : none = some kv) (by simp)

theorem ad_mem {eps cur : List (Str × Str)} {k p : Str}
    (h : (k, p) ∈ eps) (habs : lookupStr p cur = none) :
    (k, delOp) ∈ absentDeletes eps cur := by
  apply List.mem_filterMap.mpr
  refine ⟨(k, p), h, ?_⟩
  show (match lookupStr p cur with
    | some _ => none
    | none => some (k, delOp)) = some (k, delOp)
  rw [habs]

theorem aw_src {st : ShopState} {bi : Option (Str × Str)} {iso : Str → Str}
    {pruned : List Str} {cur : List (Str × Str)} {kv : Str × ChangeOp}
    (h : kv ∈ addWrites st bi iso pruned cur) :
    ∃ pc ∈ cur, kv.1 = encodeFileId st pc.1 ∧ encodeFileId st pc.1 ∉ pruned ∧
      kv.2 = ⟨.add, some (addedContent st bi iso pc.1 pc.2)⟩ := by
  obtain ⟨a, hmem, ha⟩ := List.mem_filterMap.mp h
  by_cases h2 : encodeFileId st a.1 ∈ pruned
  · rw [if_pos h2] at ha
    exact absurd (ha : none = some kv) (by simp)
  · rw [if_neg h2] at ha
    replace ha : some (encodeFileId st a.1, (⟨.add, some (addedContent st bi iso a.1 a.2)⟩ : ChangeOp)) = some kv := ha
    rw [Option.some.injEq] at ha
    exact ⟨a, hmem, by rw [← ha], h2, by rw [← ha]⟩

theorem aw_mem {st : ShopState} {bi : Option (Str × Str)} {iso : Str → Str}
    {pruned : List Str} {cur : List (Str × Str)} {pc : Str × Str}
    (hmem : pc ∈ cur) (hnot : encodeFileId st pc.1 ∉ pruned) :
    (encodeFileId st pc.1, (⟨.add, some (addedContent st bi iso pc.1 pc.2)⟩ : ChangeOp))
      ∈ addWrites st bi iso pruned cur := by
  apply List.mem_filterMap.mpr
  refine ⟨pc, hmem, ?_⟩
  show (if encodeFileId st pc.1 ∈ pruned then none
    else some (encodeFileId st pc.1, (⟨.add, some (addedContent st bi iso pc.1 pc.2)⟩ : ChangeOp)))
    = some (encodeFileId st pc.1, (⟨.add, some (addedContent st bi iso pc.1 pc.2)⟩ : ChangeOp))
  rw [if_neg hnot]

theorem ftc_spec {st : ShopState} {eps cur : List (Str × Str)}
    {m : List (Str × ChangeOp)} {kv : Str × Str} :
    kv ∈ filesToCheck st eps cur m ↔
      kv ∈ eps ∧ lookupStr kv.1 m = none ∧ (lookupStr kv.2 cur).isSome ∧
        encodeFileId st kv.2 = kv.1 := by
  rw [filesToCheck, List.mem_filter]
  constructor
  · rintro ⟨h1, h2⟩
    rw [Bool.and_eq_true] at h2
    obtain ⟨h2a, h2b⟩ := h2
    rcases hc : lookupStr kv.2 cur with _ | raw
    · rw [hc] at h2b
      exact absurd (h2b : false = true) (by simp)
    · rw [hc] at h2b
      replace h2b : decide (encodeFileId st kv.2 = kv.1) = true := h2b
      exact ⟨h1, Option.isNone_iff_eq_none.mp h2a, rfl, of_decide_eq_true h2b⟩
  · rintro ⟨h1, h2, h3, h4⟩
    refine ⟨h1, ?_⟩
    rw [Bool.and_eq_true]
    refine ⟨by rw [h2]; rfl, ?_⟩
    rcases hc : lookupStr kv.2 cur with _ | raw
    · rw [hc] at h3
      exact absurd h3 (by simp)
    · exact decide_eq_true h4

theorem uw_key {st : ShopState} {env : RemoteEnv} {ex : List (Str × Int)}
    {cur : List (Str × Str)} {toCheck : List (Str × Str)} {kv : Str × ChangeOp}
    (h : kv ∈ updateWrites st env ex cur toCheck) :
    ∃ pr ∈ toCheck, kv.1 = pr.1 := by
  obtain ⟨a, hmem, ha⟩ := List.mem_filterMap.mp h
  refine ⟨a, hmem, ?_⟩
  rcases h1 : env.lastCommit a.2 with _ | info
  · rw [h1] at ha
    exact absurd (ha : none = some kv) (by simp)
  · rcases h2 : lookupStr a.1 ex with _ | lastIndexed
    · rw [h1, h2] at ha
      exact absurd (ha : none = some kv) (by simp)
    · rcases h3 : lookupStr a.2 cur with _ | rawContent
      · rw [h1, h2, h3] at ha
        exact absurd (ha : none = some kv) (by simp)
      · rw [h1, h2, h3] at ha
        replace ha : (if lastIndexed < info.2 then
            some (a.1, (⟨.update, some (updatedContent st env a.2 rawContent info)⟩ : ChangeOp))
          else none) = some kv := ha
        by_cases h4 : lastIndexed < info.2
        · rw [if_pos h4, Option.some.injEq] at ha
          rw [← ha]
        · rw [if_neg h4] at ha
          exact absurd ha (by simp)

theorem uw_src {st : ShopState} {env : RemoteEnv} {ex : List (Str × Int)}
    {cur : List (Str × Str)} {toCheck : List (Str × Str)} {kv : Str × ChangeOp}
    (h : kv ∈ updateWrites st env ex cur toCheck) :
    ∃ pr ∈ toCheck, kv.1 = pr.1 ∧ ∃ info lastIndexed rawContent,
      env.lastCommit pr.2 = some info ∧ lookupStr pr.1 ex = some lastIndexed ∧
      lookupStr pr.2 cur = some rawContent ∧ lastIndexed < info.2 ∧
      kv.2 = ⟨.update, some (updatedContent st env pr.2 rawContent info)⟩ := by
  obtain ⟨a, hmem, ha⟩ := List.mem_filterMap.mp h
  rcases h1 : env.lastCommit a.2 with _ | info
  · rw [h1] at ha
    exact absurd (ha : none = some kv) (by simp)
  · rcases h2 : lookupStr a.1 ex with _ | lastIndexed
    · rw [h1, h2] at ha
      exact absurd (ha : none = some kv) (by simp)
    · rcases h3 : lookupStr a.2 cur with _ | rawContent
      · rw [h1, h2, h3] at ha
        exact absurd (ha : none = some kv) (by simp)
      · rw [h1, h2, h3] at ha
        replace ha : (if lastIndexed < info.2 then
            some (a.1, (⟨.update, some (updatedContent st env a.2 rawContent info)⟩ : ChangeOp))
          else none) = some kv := ha
        by_cases h4 : lastIndexed < info.2
        · rw [if_pos h4, Option.some.injEq] at ha
          exact ⟨a, hmem, by rw [← ha], info, lastIndexed, rawContent,
            h1, h2, h3, h4, by rw [← ha]⟩
        · rw [if_neg h4] at ha
          exact absurd ha (by simp)

theorem uw_mem {st : ShopState} {env : RemoteEnv} {ex : List (Str × Int)}
    {cur : List (Str × Str)} {toCheck : List (Str × Str)} {pr : Str × Str}
    {info : Str × Int} {lastIndexed : Int} {rawContent : Str}
    (hmem : pr ∈ toCheck)
    (h1 : env.lastCommit pr.2 = some info)
    (h2 : lookupStr pr.1 ex = some lastIndexed)
    (h3 : lookupStr pr.2 cur = some rawContent)
    (h4 : lastIndexed < info.2) :
    (pr.1, (⟨.update, some (updatedContent st env pr.2 rawContent info)⟩ : ChangeOp))
      ∈ updateWrites st env ex cur toCheck := by
  apply List.mem_filterMap.mpr
  refine ⟨pr, hmem, ?_⟩
  simp only [h1, h2, h3]
  rw [if_pos h4]

/-- Keys never written by the update phase when every checked entry for this
key reports a stale or missing commit. -/
theorem lastVal_uw_none {st : ShopState} {env : RemoteEnv} {ex : List (Str × Int)}
    {cur : List (Str × Str)} {toCheck : List (Str × Str)} {fid : Str}
    (huniq : ∀ pr ∈ toCheck, pr.1 = fid → ∀ info, env.lastCommit pr.2 = some info →
      ∀ lastIndexed, lookupStr fid ex = some lastIndexed → info.2 ≤ lastIndexed) :
    lastVal fid (updateWrites st env ex cur toCheck) = none := by
  apply lastVal_eq_none
  intro kv hkv hk
  obtain ⟨pr, hpr, hpr1, info, lastIndexed, rawContent, h1, h2, h3, h4, _⟩ := uw_src hkv
  rw [hk] at hpr1
  rw [← hpr1] at h2
  have := huniq pr hpr hpr1.symm info h1 lastIndexed h2
  exact absurd h4 (not_lt.mpr this)

/-- An identifier the cycle resolves as deleted (failed decode, or decoded
path absent from the snapshot) ends the cycle bound to `{action: delete}`. -/
theorem lookup_cycleMap_delete {st : ShopState} {env : RemoteEnv}
    {ex : List (Str × Int)} {fid : Str}
    (hmem : fid ∈ ex.map Prod.fst)
    (hres : fileIdToPath st fid = none ∨
      ∃ p, fileIdToPath st fid = some p ∧ lookupStr p env.files = none) :
    lookupStr fid (cycleMap st env ex) = some delOp := by
  have hm2 : lookupStr fid (cycleMapAfterAdds st env ex) = some delOp := by
    unfold cycleMapAfterAdds
    rcases hres with hdec | ⟨p, hdec, habs⟩
    · have h1 : lastVal fid (decodeFailDeletes (decodedPairs st ex)) = some delOp := by
        apply lastVal_eq_some (dfd_mem hmem hdec)
        intro kv hkv _
        exact dfd_val hkv
      have h2 : lastVal fid (absentDeletes (existingPathList (decodedPairs st ex))
          (getCurrentFiles st env).1) = none := by
        apply lastVal_eq_none
        intro kv hkv hk
        obtain ⟨q, hq, _⟩ := ad_src hkv
        have := eps_val hq
        rw [hk] at this
        rw [hdec] at this
        exact absurd this (by simp)
      have h3 : lastVal fid (addWrites st (cycleBranchHead st env) env.isoOfString
          (cyclePrunedIds st ex) (getCurrentFiles st env).1) = none := by
        apply lastVal_eq_none
        intro kv hkv hk
        obtain ⟨pc, _, hkv1, _, _⟩ := aw_src hkv
        rw [hk] at hkv1
        have := fileIdToPath_encodeFileId st pc.1
        rw [← hkv1] at this
        rw [hdec] at this
        exact absurd this (by simp)
      rw [lookupStr_writeAll_of_none _ h3, lookupStr_writeAll_of_none _ h2,
        lookupStr_writeAll_of_some _ h1]
    · have h1 : lastVal fid (decodeFailDeletes (decodedPairs st ex)) = none := by
        apply lastVal_eq_none
        intro kv hkv hk
        have := dfd_key hkv
        rw [hk] at this
        rw [hdec] at this
        exact absurd this (by simp)
      have h2 : lastVal fid (absentDeletes (existingPathList (decodedPairs st ex))
          (getCurrentFiles st env).1) = some delOp := by
        apply lastVal_eq_some (ad_mem (eps_mem hmem hdec) habs)
        intro kv hkv _
        exact ad_val hkv
      have h3 : lastVal fid (addWrites st (cycleBranchHead st env) env.isoOfString
          (cyclePrunedIds st ex) (getCurrentFiles st env).1) = none := by
        apply lastVal_eq_none
        intro kv hkv hk
        obtain ⟨pc, _, hkv1, hnp, _⟩ := aw_src hkv
        rw [hk] at hkv1
        rw [← hkv1] at hnp
        exact hnp (prunedIds_mem hmem hdec)
      rw [lookupStr_writeAll_of_none _ h3, lookupStr_writeAll_of_some _ h2]
  have h4 : lastVal fid (updateWrites st env ex (getCurrentFiles st env).1
      (cycleToCheck st env ex)) = none := by
    apply lastVal_eq_none
    intro kv hkv hk
    obtain ⟨pr, hpr, hpr1⟩ := uw_key hkv
    rw [cycleToCheck] at hpr
    have hspec := ftc_spec.mp hpr
    have hnone := hspec.2.1
    rw [← hpr1, hk, hm2] at hnone
    exact absurd hnone (by simp)
  rw [cycleMap, lookupStr_writeAll_of_none _ h4]
  exact hm2

/-- A surviving prior id whose decoded path is present in the snapshot is
untouched by the delete and add phases. -/
theorem lookup_m2_none_of_checked {st : ShopState} {env : RemoteEnv}
    {ex : List (Str × Int)} {fid p' : Str}
    (hmem : fid ∈ ex.map Prod.fst)
    (hdec : fileIdToPath st fid = some p')
    (hpres : (lookupStr p' env.files).isSome) :
    lookupStr fid (cycleMapAfterAdds st env ex) = none := by
  unfold cycleMapAfterAdds
  have h1 : lastVal fid (decodeFailDeletes (decodedPairs st ex)) = none := by
    apply lastVal_eq_none
    intro kv hkv hk
    have := dfd_key hkv
    rw [hk] at this
    rw [hdec] at this
    exact absurd this (by simp)
  have h2 : lastVal fid (absentDeletes (existingPathList (decodedPairs st ex))
      (getCurrentFiles st env).1) = none := by
    apply lastVal_eq_none
    intro kv hkv hk
    obtain ⟨q, hq, habs⟩ := ad_src hkv
    have hv := eps_val hq
    rw [hk] at hv
    rw [hdec, Option.some.injEq] at hv
    replace hv : p' = q := hv
    rw [hv] at hpres
    rw [getCurrentFiles_fst] at habs
    rw [habs] at hpres
    exact absurd hpres (by simp)
  have h3 : lastVal fid (addWrites st (cycleBranchHead st env) env.isoOfString
      (cyclePrunedIds st ex) (getCurrentFiles st env).1) = none := by
    apply lastVal_eq_none
    intro kv hkv hk
    obtain ⟨pc, _, hkv1, hnp, _⟩ := aw_src hkv
    rw [hk] at hkv1
    rw [← hkv1] at hnp
    exact hnp (prunedIds_mem hmem hdec)
  rw [lookupStr_writeAll_of_none _ h3, lookupStr_writeAll_of_none _ h2,
    lookupStr_writeAll_of_none _ h1]
  rfl

/-- The keys of the cycle's operation map are distinct (it is a JS object). -/
theorem cycleMap_keys_nodup (st : ShopState) (env : RemoteEnv)
    (ex : List (Str × Int)) : ((cycleMap st env ex).map Prod.fst).Nodup := by
  unfold cycleMap cycleMapAfterAdds
  apply nodup_keys_writeAll
  apply nodup_keys_writeAll
  apply nodup_keys_writeAll
  apply nodup_keys_writeAll
  exact List.nodup_nil

/-! ### The claims -/

/-- C1: for every source and every path whose segments contain no `-`,
decoding the identifier produced by encoding the path yields the path back. -/
theorem c1_decode_encode_roundtrip (st : ShopState) (p : Str) (h : '-' ∉ p) :
    fileIdToPath st (encodeFileId st p) = some p := by
  unfold encodeFileId
  rw [fileIdToPath_pref_append, subst_subst_cancel '/' '-' p h]

/-- C1 witness at a concrete slash-containing, hyphen-free path. -/
theorem c1_witness :
    '-' ∉ "docs/x.txt".data ∧
      fileIdToPath stO (encodeFileId stO "docs/x.txt".data) = some "docs/x.txt".data :=
  ⟨by decide, c1_decode_encode_roundtrip stO "docs/x.txt".data (by decide)⟩

/-- C2: a cycle invoked with `now - lastUsed` strictly below the configured
minimum interval returns the empty operation map and performs no remote
calls (the call log is empty). -/
theorem c2_interval_gate (st : ShopState) (env : RemoteEnv) (now lastUsed : Int)
    (existingFiles : List (Str × Int)) (h : now - lastUsed < st.updateIntervalMs) :
    update st env now lastUsed existingFiles = ([], []) := by
  unfold update
  rw [if_pos h]

/-- C2 witness at concrete timestamps. -/
theorem c2_witness : update stO envBar 5 0 [("q".data, 3)] = ([], []) :=
  c2_interval_gate stO envBar 5 0 [("q".data, 3)] (by decide)

/-- C3: every prior identifier whose decode succeeds and whose decoded path
is absent from the snapshot is bound to `{action: delete}` in the result. -/
theorem c3_delete_on_absent (st : ShopState) (env : RemoteEnv) (now lastUsed : Int)
    (existingFiles : List (Str × Int)) (fid p : Str)
    (hgate : ¬ now - lastUsed < st.updateIntervalMs)
    (hmem : fid ∈ existingFiles.map Prod.fst)
    (hdec : fileIdToPath st fid = some p)
    (habs : lookupStr p env.files = none) :
    lookupStr fid (update st env now lastUsed existingFiles).1 = some delOp := by
  unfold update
  rw [if_neg hgate]
  exact lookup_cycleMap_delete hmem (Or.inr ⟨p, hdec, habs⟩)

/-- C3 witness: a recorded file deleted upstream. -/
theorem c3_witness :
    lookupStr "github-repo-o-r-a.txt".data
      (update stO envEmpty 2000 0 [("github-repo-o-r-a.txt".data, 100)]).1 = some delOp :=
  c3_delete_on_absent stO envEmpty 2000 0 [("github-repo-o-r-a.txt".data, 100)]
    "github-repo-o-r-a.txt".data "a.txt".data (by decide) (by decide) (by decide) (by decide)

/-- C6: the operation map binds every identifier at most once (its keys are
distinct), and an identifier the cycle resolves as deleted — failed decode,
or decoded path absent from the snapshot — is only ever bound to delete,
for every combination of prior records and snapshot, collisions included. -/
theorem c6_unique_keys_delete_precedence (st : ShopState) (env : RemoteEnv)
    (now lastUsed : Int) (existingFiles : List (Str × Int)) :
    ((update st env now lastUsed existingFiles).1.map Prod.fst).Nodup ∧
      ∀ fid, fid ∈ existingFiles.map Prod.fst →
        (fileIdToPath st fid = none ∨
          ∃ p, fileIdToPath st fid = some p ∧ lookupStr p env.files = none) →
        ∀ v, lookupStr fid (update st env now lastUsed existingFiles).1 = some v →
          v = delOp := by
  constructor
  · unfold update
    by_cases h : now - lastUsed < st.updateIntervalMs
    · rw [if_pos h]
      exact List.nodup_nil
    · rw [if_neg h]
      exact cycleMap_keys_nodup st env existingFiles
  · intro fid hmem hres v hv
    unfold update at hv
    by_cases h : now - lastUsed < st.updateIntervalMs
    · rw [if_pos h] at hv
      exact absurd (hv : lookupStr fid ([] : List (Str × ChangeOp)) = some v) (by simp)
    · rw [if_neg h] at hv
      replace hv : lookupStr fid (cycleMap st env existingFiles) = some v := hv
      rw [lookup_cycleMap_delete hmem hres, Option.some.injEq] at hv
      exact hv.symm

/-- C6 witness: an id with a failed decode stays a delete in a concrete run. -/
theorem c6_witness :
    ((update stO envBar 2000 0 [("x-".data, 5)]).1.map Prod.fst).Nodup ∧
      delOp = delOp :=
  ⟨(c6_unique_keys_delete_precedence stO envBar 2000 0 [("x-".data, 5)]).1,
    (c6_unique_keys_delete_precedence stO envBar 2000 0 [("x-".data, 5)]).2
      "x-".data (by decide) (Or.inl (by decide)) delOp (by decide)⟩

/-- C7 counterexample: a prior identifier without the expected head whose
decode nevertheless succeeds through the fallback (`foo-bar` decodes to
`bar`), and for which the cycle emits no delete at all when the guessed path
exists upstream — against the claim that decode fails and an unconditional
delete is emitted. -/
theorem c7_counterexample :
    ¬ idPref stO <+: "foo-bar".data ∧
      fileIdToPath stO "foo-bar".data = some "bar".data ∧
      lookupStr "foo-bar".data (update stO envBar 2000 0 [("foo-bar".data, 100)]).1
        = none := by
  decide

/-- C7 (amended): for a prior identifier without the expected head, decode
falls back to everything after the first `-` with `-` replaced by `/`; it
fails exactly when that fallback is empty, and exactly then the cycle
recovers by emitting an unconditional delete for that identifier. -/
theorem c7_amended_fallback (st : ShopState) (env : RemoteEnv) (now lastUsed : Int)
    (existingFiles : List (Str × Int)) (fid : Str)
    (hgate : ¬ now - lastUsed < st.updateIntervalMs)
    (hpre : ¬ idPref st <+: fid)
    (hmem : fid ∈ existingFiles.map Prod.fst) :
    (fileIdToPath st fid = none ↔ afterFirst '-' fid = []) ∧
      (afterFirst '-' fid = [] →
        lookupStr fid (update st env now lastUsed existingFiles).1 = some delOp) := by
  have hchar : fileIdToPath st fid = none ↔ afterFirst '-' fid = [] := by
    unfold fileIdToPath
    rw [if_neg hpre]
    constructor
    · intro h
      by_cases hl : 0 < (substChar '-' '/' (afterFirst '-' fid)).length
      · rw [if_pos hl] at h
        exact absurd h (by simp)
      · have h0 : (substChar '-' '/' (afterFirst '-' fid)).length = 0 :=
          Nat.eq_zero_of_not_pos hl
        have h2 := List.length_eq_zero.mp h0
        unfold substChar at h2
        exact List.map_eq_nil_iff.mp h2
    · intro h
      rw [h]
      rfl
  refine ⟨hchar, ?_⟩
  intro h
  unfold update
  rw [if_neg hgate]
  exact lookup_cycleMap_delete hmem (Or.inl (hchar.mpr h))

/-- C7 amended witness: the identifier `x-` (empty fallback) is decoded to a
failure and force-deleted in a concrete run. -/
theorem c7_amended_witness :
    (fileIdToPath stO "x-".data = none ↔ afterFirst '-' "x-".data = []) ∧
      (afterFirst '-' "x-".data = [] →
        lookupStr "x-".data (update stO envBar 2000 0 [("x-".data, 5)]).1
          = some delOp) :=
  c7_amended_fallback stO envBar 2000 0 [("x-".data, 5)] "x-".data
    (by decide) (by decide) (by decide)

/-- C9 counterexample: an identifier that begins with the expected head but
whose remainder contains `/` decodes successfully, yet re-encoding the
decoded path does not restore the identifier. -/
theorem c9_counterexample :
    idPref stO <+: "github-repo-o-r-a/b".data ∧
      fileIdToPath stO "github-repo-o-r-a/b".data = some "a/b".data ∧
      encodeFileId stO "a/b".data ≠ "github-repo-o-r-a/b".data := by
  decide

/-- C9 (amended): for every identifier that begins with the expected head and
whose remainder contains no `/`, re-encoding the decoded path restores the
identifier — even when the remainder contains `-` and the opposite
round-trip would fail. -/
theorem c9_amended_encode_decode (st : ShopState) (fileId : Str)
    (hpre : idPref st <+: fileId)
    (hslash : '/' ∉ fileId.drop (idPref st).length) :
    ∃ p, fileIdToPath st fileId = some p ∧ encodeFileId st p = fileId := by
  obtain ⟨rest, hrest⟩ := hpre
  subst hrest
  rw [List.drop_left] at hslash
  refine ⟨substChar '-' '/' rest, fileIdToPath_pref_append st rest, ?_⟩
  unfold encodeFileId
  rw [subst_subst_cancel '-' '/' rest hslash]

/-- C9 amended witness at a hyphen-containing identifier. -/
theorem c9_witness :
    ∃ p, fileIdToPath stO "github-repo-o-r-a-b".data = some p ∧
      encodeFileId stO p = "github-repo-o-r-a-b".data :=
  c9_amended_encode_decode stO "github-repo-o-r-a-b".data (by decide) (by decide)

/-- C10: when the configuration omits the branch option, every branch-taking
remote call of the cycle (tree listing, branch info, per-path commit lookup)
is issued against the literal branch name `master`. -/
theorem c10_default_branch_master (st : ShopState) (env : RemoteEnv)
    (now lastUsed : Int) (existingFiles : List (Str × Int))
    (hb : st.branch = initBranch none) :
    ∀ c ∈ (update st env now lastUsed existingFiles).2, ∀ b,
      callBranch c = some b → b = "master".data := by
  intro c hc b hcb
  have hbm : st.branch = "master".data := hb
  unfold update at hc
  by_cases h : now - lastUsed < st.updateIntervalMs
  · rw [if_pos h] at hc
    exact absurd (hc : c ∈ ([] : List RemoteCall)) (List.not_mem_nil c)
  · rw [if_neg h] at hc
    replace hc : c ∈ cycleCalls st env existingFiles := hc
    unfold cycleCalls at hc
    rcases List.mem_append.mp hc with hc1 | hc2
    · rcases List.mem_append.mp hc1 with hc3 | hc4
      · replace hc3 : c ∈ RemoteCall.treeList st.branch
            :: env.files.map (fun f => RemoteCall.blobFetch f.1) := hc3
        rcases List.mem_cons.mp hc3 with hc5 | hc5
        · rw [hc5] at hcb
          replace hcb : some st.branch = some b := hcb
          rw [Option.some.injEq] at hcb
          rw [← hcb, hbm]
        · obtain ⟨f, _, hf⟩ := List.mem_map.mp hc5
          rw [← hf] at hcb
          exact Option.noConfusion (hcb : (none : Option Str) = some b)
      · by_cases hh : st.shouldIncludeHeader
        · rw [if_pos hh] at hc4
          rcases List.mem_cons.mp hc4 with hc5 | hc5
          · rw [hc5] at hcb
            replace hcb : some st.branch = some b := hcb
            rw [Option.some.injEq] at hcb
            rw [← hcb, hbm]
          · exact absurd hc5 (List.not_mem_nil c)
        · rw [if_neg hh] at hc4
          exact absurd hc4 (List.not_mem_nil c)
    · obtain ⟨kv, _, hkv⟩ := List.mem_map.mp hc2
      rw [← hkv] at hcb
      replace hcb : some st.branch = some b := hcb
      rw [Option.some.injEq] at hcb
      rw [← hcb, hbm]

/-- C10 witness: the tree listing of a concrete default-branch run is issued
against `master`. -/
theorem c10_witness :
    RemoteCall.treeList "master".data ∈ (update stH envBar 2000 0 []).2 ∧
      ∀ b, callBranch (RemoteCall.treeList "master".data) = some b →
        b = "master".data :=
  ⟨by decide, c10_default_branch_master stH envBar 2000 0 [] rfl
    (RemoteCall.treeList "master".data) (by decide)⟩

/-- C4 counterexample: with colliding snapshot paths `a-b` and `a/b` (both new,
headers off), the single shared identifier holds the add content of the later
path, so the claimed binding `encode(p) -> add with the raw content of p` fails
for `a-b`. -/
theorem c4_counterexample :
    ("a-b".data, "X".data) ∈ envColl.files ∧
      lookupStr (encodeFileId stO "a-b".data) (update stO envColl 2000 0 []).1
          ≠ some ⟨.add, some "X".data⟩ ∧
      lookupStr (encodeFileId stO "a-b".data) (update stO envColl 2000 0 []).1
          = some ⟨.add, some "Y".data⟩ := by
  decide

/-- C4 (amended): for every snapshot path whose identifier is absent from the
prior records and is shared with no other snapshot entry, the result binds the
identifier to an add whose content is annotated with branch-head metadata when
the header flag is on and that metadata is available, and is the raw content
unchanged otherwise. -/
theorem c4_amended_add_emitted (st : ShopState) (env : RemoteEnv) (now lastUsed : Int)
    (existingFiles : List (Str × Int)) (p raw : Str)
    (hgate : ¬ now - lastUsed < st.updateIntervalMs)
    (hmem : (p, raw) ∈ env.files)
    (huniq : ∀ pc ∈ env.files, encodeFileId st pc.1 = encodeFileId st p → pc = (p, raw))
    (hnew : encodeFileId st p ∉ existingFiles.map Prod.fst) :
    lookupStr (encodeFileId st p) (update st env now lastUsed existingFiles).1 =
      some ⟨.add, some (addedContent st (cycleBranchHead st env) env.isoOfString p raw)⟩ := by
  unfold update
  rw [if_neg hgate]
  show lookupStr (encodeFileId st p) (cycleMap st env existingFiles) = _
  have hfidnp : encodeFileId st p ∉ cyclePrunedIds st existingFiles :=
    fun hc => hnew (prunedIds_subset hc)
  have h1 : lastVal (encodeFileId st p)
      (decodeFailDeletes (decodedPairs st existingFiles)) = none := by
    apply lastVal_eq_none
    intro kv hkv hk
    have := dfd_key hkv
    rw [hk, fileIdToPath_encodeFileId] at this
    exact absurd this (by simp)
  have h2 : lastVal (encodeFileId st p)
      (absentDeletes (existingPathList (decodedPairs st existingFiles))
        (getCurrentFiles st env).1) = none := by
    apply lastVal_eq_none
    intro kv hkv hk
    obtain ⟨q, hq, _⟩ := ad_src hkv
    have := eps_key hq
    rw [hk] at this
    exact hnew this
  have h3 : lastVal (encodeFileId st p)
      (addWrites st (cycleBranchHead st env) env.isoOfString
        (cyclePrunedIds st existingFiles) (getCurrentFiles st env).1) =
      some ⟨.add, some (addedContent st (cycleBranchHead st env) env.isoOfString p raw)⟩ := by
    apply lastVal_eq_some
    · exact aw_mem hmem hfidnp
    · intro kv hkv hk
      obtain ⟨pc, hpc, hkv1, _, hval⟩ := aw_src hkv
      rw [hk] at hkv1
      have hpe : pc = (p, raw) := huniq pc hpc hkv1.symm
      rw [hval, hpe]
  have hm2 : lookupStr (encodeFileId st p) (cycleMapAfterAdds st env existingFiles) =
      some ⟨.add, some (addedContent st (cycleBranchHead st env) env.isoOfString p raw)⟩ := by
    unfold cycleMapAfterAdds
    rw [lookupStr_writeAll_of_some _ h3]
  have h4 : lastVal (encodeFileId st p)
      (updateWrites st env existingFiles (getCurrentFiles st env).1
        (cycleToCheck st env existingFiles)) = none := by
    apply lastVal_eq_none
    intro kv hkv hk
    obtain ⟨pr, hpr, hpr1⟩ := uw_key hkv
    rw [cycleToCheck] at hpr
    have hnone := (ftc_spec.mp hpr).2.1
    rw [← hpr1, hk, hm2] at hnone
    exact absurd hnone (by simp)
  rw [cycleMap, lookupStr_writeAll_of_none _ h4]
  exact hm2

/-- C4 amended witness: a single new file added with raw content. -/
theorem c4_witness :
    lookupStr (encodeFileId stO "a.txt".data) (update stO envUpd 2000 0 []).1 =
      some ⟨.add, some (addedContent stO (cycleBranchHead stO envUpd)
        envUpd.isoOfString "a.txt".data "C".data)⟩ :=
  c4_amended_add_emitted stO envUpd 2000 0 [] "a.txt".data "C".data
    (by decide) (by decide) (by decide) (by decide)

/-- C5: for an identifier recorded before, present in the current snapshot's
identifier set, and not delete-resolved (its decoded path is present), an
update is emitted iff the per-path commit-time oracle succeeds with a
timestamp strictly greater than the recorded one, carrying content annotated
with that specific commit when headers are on and raw content otherwise; a
stale, missing-history or failed oracle emits nothing for that identifier. -/
theorem c5_update_iff (st : ShopState) (env : RemoteEnv) (now lastUsed : Int)
    (existingFiles : List (Str × Int)) (fid pDec rawp : Str) (tsPrior : Int)
    (hgate : ¬ now - lastUsed < st.updateIntervalMs)
    (hprior : lookupStr fid existingFiles = some tsPrior)
    (hcur : ∃ pc ∈ env.files, encodeFileId st pc.1 = fid)
    (hdec : fileIdToPath st fid = some pDec)
    (hpres : lookupStr pDec env.files = some rawp) :
    lookupStr fid (update st env now lastUsed existingFiles).1 =
      (env.lastCommit pDec).bind (fun info =>
        if tsPrior < info.2 then
          some ⟨.update, some (updatedContent st env pDec rawp info)⟩
        else none) := by
  unfold update
  rw [if_neg hgate]
  show lookupStr fid (cycleMap st env existingFiles) = _
  obtain ⟨pc, hpc, hpcid⟩ := hcur
  have hdec2 : fileIdToPath st (encodeFileId st pc.1) = some pDec := by
    rw [hpcid]
    exact hdec
  have henc : encodeFileId st pDec = fid := by
    rw [← hpcid]
    exact encodeFileId_of_decode hdec2
  have hmemex : fid ∈ existingFiles.map Prod.fst :=
    List.mem_map.mpr ⟨(fid, tsPrior), mem_of_lookupStr_eq_some hprior, rfl⟩
  have hm2 : lookupStr fid (cycleMapAfterAdds st env existingFiles) = none :=
    lookup_m2_none_of_checked hmemex hdec (by rw [hpres]; rfl)
  have htc : (fid, pDec) ∈ cycleToCheck st env existingFiles := by
    rw [cycleToCheck]
    apply ftc_spec.mpr
    refine ⟨eps_mem hmemex hdec, hm2, ?_, henc⟩
    show (lookupStr pDec (getCurrentFiles st env).1).isSome = true
    rw [getCurrentFiles_fst, hpres]
    rfl
  have htcu : ∀ pr ∈ cycleToCheck st env existingFiles, pr.1 = fid → pr.2 = pDec := by
    intro pr hpr hk
    rw [cycleToCheck] at hpr
    have hv := eps_val (ftc_spec.mp hpr).1
    rw [hk, hdec, Option.some.injEq] at hv
    exact hv.symm
  rw [cycleMap]
  rcases horacle : env.lastCommit pDec with _ | info
  · have h4 : lastVal fid (updateWrites st env existingFiles (getCurrentFiles st env).1
        (cycleToCheck st env existingFiles)) = none := by
      apply lastVal_uw_none
      intro pr hpr hk info0 h1 lastIndexed0 h2
      rw [htcu pr hpr hk] at h1
      rw [horacle] at h1
      exact absurd h1 (by simp)
    rw [lookupStr_writeAll_of_none _ h4, hm2]
    rfl
  · by_cases hts : tsPrior < info.2
    · have hmemw : (fid, (⟨.update, some (updatedContent st env pDec rawp info)⟩ : ChangeOp))
          ∈ updateWrites st env existingFiles (getCurrentFiles st env).1
            (cycleToCheck st env existingFiles) :=
        uw_mem htc horacle hprior
          (by rw [getCurrentFiles_fst]; exact hpres) hts
      have hlv : lastVal fid (updateWrites st env existingFiles (getCurrentFiles st env).1
          (cycleToCheck st env existingFiles)) =
          some ⟨.update, some (updatedContent st env pDec rawp info)⟩ := by
        apply lastVal_eq_some hmemw
        intro kv hkv hk
        obtain ⟨pr, hpr, hpr1, info0, lastIndexed0, raw0, h1, h2, h3, _, hval⟩ := uw_src hkv
        rw [hk] at hpr1
        have hp2 : pr.2 = pDec := htcu pr hpr hpr1.symm
        rw [hp2] at h1 h3 hval
        rw [horacle, Option.some.injEq] at h1
        rw [← hpr1, hprior, Option.some.injEq] at h2
        rw [getCurrentFiles_fst, hpres, Option.some.injEq] at h3
        rw [hval, ← h1, ← h3]
      rw [lookupStr_writeAll_of_some _ hlv]
      simp only [Option.some_bind]
      rw [if_pos hts]
    · have h4 : lastVal fid (updateWrites st env existingFiles (getCurrentFiles st env).1
          (cycleToCheck st env existingFiles)) = none := by
        apply lastVal_uw_none
        intro pr hpr hk info0 h1 lastIndexed0 h2
        rw [htcu pr hpr hk] at h1
        rw [horacle, Option.some.injEq] at h1
        rw [hprior, Option.some.injEq] at h2
        rw [← h1, ← h2]
        exact not_lt.mp hts
      rw [lookupStr_writeAll_of_none _ h4, hm2]
      simp only [Option.some_bind]
      rw [if_neg hts]

/-- C5 witness: a known file with a newer upstream commit is re-emitted as an
update with raw content (headers off). -/
theorem c5_witness :
    lookupStr "github-repo-o-r-a.txt".data
        (update stO envUpd 2000 0 [("github-repo-o-r-a.txt".data, 100)]).1 =
      some ⟨.update, some "C".data⟩ :=
  (c5_update_iff stO envUpd 2000 0 [("github-repo-o-r-a.txt".data, 100)]
      "github-repo-o-r-a.txt".data "a.txt".data "C".data 100
      (by decide) (by decide) ⟨("a.txt".data, "C".data), by decide, by decide⟩
      (by decide) (by decide)).trans (by decide)

/-- Decimal digits are not `parseInt` whitespace. -/
theorem isJsSpace_eq_false_of_isDigit {c : Char} (h : c.isDigit = true) :
    isJsSpace c = false := by
  by_cases h1 : c = ' '
  · rw [h1] at h
    exact absurd h (by decide)
  · by_cases h2 : c = '\t'
    · rw [h2] at h
      exact absurd h (by decide)
    · by_cases h3 : c = '\n'
      · rw [h3] at h
        exact absurd h (by decide)
      · by_cases h4 : c = '\r'
        · rw [h4] at h
          exact absurd h (by decide)
        · by_cases h5 : c = '\x0b'
          · rw [h5] at h
            exact absurd h (by decide)
          · by_cases h6 : c = '\x0c'
            · rw [h6] at h
              exact absurd h (by decide)
            · unfold isJsSpace
              rw [decide_eq_false h1, decide_eq_false h2, decide_eq_false h3,
                decide_eq_false h4, decide_eq_false h5, decide_eq_false h6]
              rfl

/-- C8 counterexample: `5.7m` is not of the form `<integer><unit>`, yet
`parseInterval` accepts it (as 5 minutes) because JS `parseInt` keeps the
leading integer prefix of `5.7`; and the empty interval string is replaced by
the `1d` default at `init` rather than raising. -/
theorem c8_counterexample :
    ¬ strictIntervalForm "5.7m".data ∧
      parseInterval "5.7m".data = some 300000 ∧
      initUpdateIntervalMs (some "".data) = some 86400000 := by
  decide

/-- C8 (amended): initialization rejects an interval whose magnitude has no
parseable leading integer (JS `parseInt` NaN) and one whose final character
is not a unit among m, h, d, w; every string of the strict form
`<digits><unit>` is accepted — but so are magnitudes with trailing garbage
after an integer prefix, as the counterexample shows. -/
theorem c8_amended_interval_errors :
    (∀ s : Str, jsParseInt s.dropLast = none → parseInterval s = none) ∧
    (∀ s : Str, (s.getLast? ≠ some 'm' ∧ s.getLast? ≠ some 'h' ∧
        s.getLast? ≠ some 'd' ∧ s.getLast? ≠ some 'w') → parseInterval s = none) ∧
    (∀ ds : Str, ∀ u : Char, ds ≠ [] → (∀ c ∈ ds, c.isDigit) →
      (u = 'm' ∨ u = 'h' ∨ u = 'd' ∨ u = 'w') →
      (parseInterval (ds ++ [u])).isSome) := by
  refine ⟨?_, ?_, ?_⟩
  · intro s h
    unfold parseInterval
    rw [h]
  · intro s h
    rcases h1 : jsParseInt s.dropLast with _ | v
    · unfold parseInterval
      rw [h1]
    · rcases h2 : s.getLast? with _ | u
      · unfold parseInterval
        rw [h1, h2]
      · have hm : ¬ u = 'm' := fun hc => h.1 (by rw [h2, hc])
        have hh : ¬ u = 'h' := fun hc => h.2.1 (by rw [h2, hc])
        have hd : ¬ u = 'd' := fun hc => h.2.2.1 (by rw [h2, hc])
        have hw : ¬ u = 'w' := fun hc => h.2.2.2 (by rw [h2, hc])
        unfold parseInterval
        rw [h1, h2]
        show (if u = 'm' then some (v * 60 * 1000)
          else if u = 'h' then some (v * 60 * 60 * 1000)
          else if u = 'd' then some (v * 24 * 60 * 60 * 1000)
          else if u = 'w' then some (v * 7 * 24 * 60 * 60 * 1000)
          else none) = none
        rw [if_neg hm, if_neg hh, if_neg hd, if_neg hw]
  · intro ds u hne hdig hu
    obtain ⟨c, t, rfl⟩ := List.exists_cons_of_ne_nil hne
    have hc : c.isDigit = true := hdig c (List.mem_cons_self _ _)
    have hjs : jsParseInt (c :: t) =
        some ((digitsToNat ((c :: t).takeWhile Char.isDigit) : Nat) : Int) := by
      unfold jsParseInt
      have hds : (c :: t).dropWhile isJsSpace = c :: t := by
        rw [List.dropWhile_cons, isJsSpace_eq_false_of_isDigit hc]
        rfl
      rw [hds]
      have hcm : ¬ c = '-' := by
        intro hcc
        rw [hcc] at hc
        exact absurd hc (by decide)
      have hcp : ¬ c = '+' := by
        intro hcc
        rw [hcc] at hc
        exact absurd hc (by decide)
      show (if c = '-' then (leadingDigits t).map (fun n => -(n : Int))
        else if c = '+' then (leadingDigits t).map (fun n => (n : Int))
        else (leadingDigits (c :: t)).map (fun n => (n : Int))) = _
      rw [if_neg hcm, if_neg hcp]
      unfold leadingDigits
      rw [List.takeWhile_cons, hc]
      rfl
    unfold parseInterval
    rw [List.dropLast_concat, hjs, List.getLast?_concat]
    show ((if u = 'm' then some ((digitsToNat ((c :: t).takeWhile Char.isDigit) : Int) * 60 * 1000)
      else if u = 'h' then some ((digitsToNat ((c :: t).takeWhile Char.isDigit) : Int) * 60 * 60 * 1000)
      else if u = 'd' then some ((digitsToNat ((c :: t).takeWhile Char.isDigit) : Int) * 24 * 60 * 60 * 1000)
      else if u = 'w' then some ((digitsToNat ((c :: t).takeWhile Char.isDigit) : Int) * 7 * 24 * 60 * 60 * 1000)
      else none) : Option Int).isSome = true
    rcases hu with hu | hu | hu | hu
    · rw [hu, if_pos rfl]
      rfl
    · rw [hu]
      rw [if_neg (by decide), if_pos rfl]
      rfl
    · rw [hu]
      rw [if_neg (by decide), if_neg (by decide), if_pos rfl]
      rfl
    · rw [hu]
      rw [if_neg (by decide), if_neg (by decide), if_neg (by decide), if_pos rfl]
      rfl

/-- C8 amended witness: a strict-form interval is accepted. -/
theorem c8_amended_witness : (parseInterval ("2".data ++ ['h'])).isSome :=
  c8_amended_interval_errors.2.2 "2".data 'h' (by decide) (by decide)
    (Or.inr (Or.inl rfl))

end ShopGithubRepo

